import Mathlib

/-!
Shallow embedding of the retrieval scripts of the repository
(`exemplo_audio_embeddings.py`, `exemplo_rag_sistema.py`, `exemplo_faiss.py`):
a corpus store with parallel metadata records, a sentence-aligned text
chunker, and a flat L2 vector index with k-nearest-neighbour search.

Python strings are modelled as `List Char`, Python dicts as insertion-ordered
association lists with Python's update-in-place-or-append assignment
semantics, Python list indexing (including negative indices) as `pythonGet`,
and raised exceptions as `Except` errors.  The external collaborators
(sentence-embedding model, FAISS `IndexFlatL2`) are modelled by an abstract
embedding function parameter and by the documented exact flat-index
semantics: the `min(k, n)` nearest stored vectors ordered by squared L2
distance (ties by ascending row id), padded up to `k` entries with label
`-1` when `k` exceeds the number of stored vectors, and a rejection of
non-positive `k`.
-/

/-- Python scalar values stored in metadata dictionaries. -/
inductive Val where
  | vStr : String → Val
  | vInt : Int → Val
deriving DecidableEq, Repr

/-- A Python dict with string keys: an insertion-ordered association list
with no duplicate keys (assignment updates in place or appends). -/
abbrev Dict : Type := List (String × Val)

/-- Key membership test, `k in d` in Python. -/
def dictContains (d : Dict) (k : String) : Bool :=
  d.any (fun p => p.1 == k)

/-- Lookup, `d[k]` in Python (`none` when the key is absent). -/
def dictGet? (d : Dict) (k : String) : Option Val :=
  (d.find? (fun p => p.1 == k)).map (·.2)

/-- Assignment `d[k] = v` in Python: replace the value at the key's existing
position when the key is present, otherwise append the new pair.  (Dicts in
the modelled scripts are duplicate-free, so replacing the first occurrence
is the Python semantics.) -/
def dictSet (d : Dict) (k : String) (v : Val) : Dict :=
  match d with
  | [] => [(k, v)]
  | p :: rest => if p.1 == k then (p.1, v) :: rest else p :: dictSet rest k v

/-- The dict-literal merge `{a: x, ..., **m}`: fold the entries of `m` into
the base dict with assignment semantics. -/
def dictMergeStar (base m : Dict) : Dict :=
  m.foldl (fun d p => dictSet d p.1 p.2) base

/-- Python list indexing `l[i]`: a negative index counts from the end;
out-of-range access raises `IndexError`, modelled as `none`. -/
def pythonGet (l : List α) (i : Int) : Option α :=
  if 0 ≤ i then l.get? i.toNat
  else if 0 ≤ (l.length : Int) + i then l.get? ((l.length : Int) + i).toNat
  else none

/-! ## Text chunker (`SistemaRAG._dividir_em_chunks`) -/

/-- The whitespace class stripped by Python `str.strip()` (ASCII part). -/
def pyIsSpace (c : Char) : Bool :=
  c == ' ' || c == '\t' || c == '\n' || c == '\x0b' || c == '\x0c' || c == '\r'

/-- Python `str.strip()`: drop leading and trailing whitespace. -/
def pyStrip (l : List Char) : List Char :=
  ((l.dropWhile pyIsSpace).reverse.dropWhile pyIsSpace).reverse

/-- The sentence-terminal characters of the chunker's split pattern. -/
def isDelim (c : Char) : Bool :=
  c == '.' || c == '!' || c == '?'

/-- One right-fold step of the regex split.  The accumulator holds the
segments found so far (head = segment currently being extended leftward)
and whether the character immediately to the right was a delimiter, so
that a maximal delimiter run produces a single boundary. -/
def regexSplitStep (c : Char) (acc : List (List Char) × Bool) :
    List (List Char) × Bool :=
  if isDelim c then
    if acc.2 then acc else ([] :: acc.1, true)
  else
    match acc.1 with
    | [] => ([[c]], false)
    | s :: ss => ((c :: s) :: ss, false)

/-- `re.split(r'[.!?]+', texto)`: split on maximal nonempty runs of
sentence-terminal punctuation, discarding the delimiters. -/
def regexSplit (texto : List Char) : List (List Char) :=
  (texto.foldr regexSplitStep ([[]], false)).1

/-- The non-empty stripped sentences of a text, in order: the units the
chunker accumulates. -/
def sentencas (texto : List Char) : List (List Char) :=
  ((regexSplit texto).map pyStrip).filter (fun s => !s.isEmpty)

/-- The chunker's loop body on a non-empty stripped sentence `s`: extend the
running buffer when the test `len(chunk_atual + sentenca) < tamanho_chunk`
passes, otherwise flush the stripped buffer (when non-empty) and restart
the buffer with this sentence. -/
def coreStep (tamanho : Nat) (p : List (List Char) × List Char)
    (s : List Char) : List (List Char) × List Char :=
  if (p.2 ++ s).length < tamanho then
    (p.1, p.2 ++ s ++ ['.', ' '])
  else if p.2.isEmpty then
    (p.1, s ++ ['.', ' '])
  else
    (p.1 ++ [pyStrip p.2], s ++ ['.', ' '])

/-- One iteration of the chunker's loop body, on a raw (unstripped) segment
of the regex split: strip, skip if empty, else run `coreStep`. -/
def chunkStep (tamanho : Nat) (p : List (List Char) × List Char)
    (sraw : List Char) : List (List Char) × List Char :=
  let s := pyStrip sraw
  if s.isEmpty then p else coreStep tamanho p s

/-- `SistemaRAG._dividir_em_chunks(texto, tamanho_chunk)` (default 500):
split into sentences, greedily accumulate stripped sentences with a
`". "` suffix while the buffer stays under the target, flushing the
stripped buffer when the next sentence would reach it, and flush the
final non-empty buffer. -/
def dividir_em_chunks (texto : List Char) (tamanho : Nat := 500) :
    List (List Char) :=
  let p := (regexSplit texto).foldl (chunkStep tamanho) ([], [])
  if p.2.isEmpty then p.1 else p.1 ++ [pyStrip p.2]

/-! ## Exceptions

Python exceptions raised (directly or by the FAISS library) in the modelled
code paths. -/

inductive PyError where
  | valueError (msg : String)
  | faissKMustBePositive
  | indexError
deriving DecidableEq, Repr

deriving instance DecidableEq for Except

/-! ## FAISS `IndexFlatL2` (external collaborator)

Exact flat index over squared-L2 distance.  `search(q, k)` validates
`k > 0`, returns the `min(k, ntotal)` nearest stored vectors as
`(distance, row id)` pairs ordered by ascending distance with ties by
ascending row id, and pads the result up to `k` entries with the sentinel
pair `(HUGE_VALF, -1)` when `k` exceeds `ntotal`. -/

/-- Squared L2 distance between two vectors (componentwise over the shared
prefix; the embedding provider returns a fixed dimension per instance). -/
def sqDist (u v : List Int) : Int :=
  ((u.zip v).map (fun p => (p.1 - p.2) ^ 2)).sum

/-- Sentinel distance filling unmatched result slots (`HUGE_VALF`). -/
def faissMaxDist : Int := 2 ^ 128

/-- A built flat index: the stored vectors in row order. -/
structure FaissIndex where
  vecs : List (List Int)
deriving DecidableEq, Repr

/-- Ascending (distance, row id) lexicographic order on result pairs. -/
def lexRel (a b : Int × Int) : Prop :=
  a.1 < b.1 ∨ (a.1 = b.1 ∧ a.2 ≤ b.2)

instance : DecidableRel lexRel := fun a b => by
  unfold lexRel
  infer_instance

/-- Strict version of `lexRel`: distances strictly increase, or are equal
with strictly increasing row ids. -/
def lexLt (a b : Int × Int) : Prop :=
  a.1 < b.1 ∨ (a.1 = b.1 ∧ a.2 < b.2)

instance : IsTotal (Int × Int) lexRel :=
  ⟨fun a b => by
    unfold lexRel
    rcases lt_trichotomy a.1 b.1 with h | h | h
    · exact Or.inl (Or.inl h)
    · rcases le_total a.2 b.2 with h2 | h2
      · exact Or.inl (Or.inr ⟨h, h2⟩)
      · exact Or.inr (Or.inr ⟨h.symm, h2⟩)
    · exact Or.inr (Or.inl h)⟩

instance : IsTrans (Int × Int) lexRel :=
  ⟨fun a b c hab hbc => by
    unfold lexRel at *
    rcases hab with h1 | ⟨h1, h1'⟩ <;> rcases hbc with h2 | ⟨h2, h2'⟩
    · exact Or.inl (h1.trans h2)
    · exact Or.inl (h2 ▸ h1)
    · exact Or.inl (h1 ▸ h2)
    · exact Or.inr ⟨h1.trans h2, h1'.trans h2'⟩⟩

/-- All (distance, row id) pairs of the index against query `q`, ordered by
ascending distance, ties by ascending row id (the exact flat search is
deterministic, so the sorted pair list is its result order). -/
def faissPairs (idx : FaissIndex) (q : List Int) : List (Int × Int) :=
  ((idx.vecs.enum).map (fun p => (sqDist q p.2, (p.1 : Int)))).insertionSort
    lexRel

/-- `index.search(q, k)` of `IndexFlatL2`. -/
def faissSearch (idx : FaissIndex) (q : List Int) (k : Int) :
    Except PyError (List (Int × Int)) :=
  if k ≤ 0 then .error .faissKMustBePositive
  else
    .ok ((faissPairs idx q).take k.toNat ++
      List.replicate (k.toNat - idx.vecs.length) (faissMaxDist, -1))

/-! ## `AudioEmbeddingSystem` (`exemplo_audio_embeddings.py`)

The sentence-embedding model is an abstract parameter
`emb : List Char → List Int`; `datetime.now().isoformat()` is the
parameter `now`. -/

/-- The mutable state of an `AudioEmbeddingSystem` instance. -/
structure AudioEmbeddingSystem where
  transcricoes : List (List Char)
  metadados : List Dict
  indice : Option FaissIndex
deriving DecidableEq, Repr

/-- `AudioEmbeddingSystem.__init__`: empty parallel lists, no index. -/
def audioInit : AudioEmbeddingSystem := ⟨[], [], none⟩

/-- One search result record of `buscar_transcricoes`. -/
structure SearchResult where
  posicao : Nat
  transcricao : List Char
  metadados : Dict
  distancia : Int
  similaridade : ℚ
deriving DecidableEq, Repr

/-- The metadata-stamping steps of `adicionar_transcricao`: default a
missing mapping to `{}`, add `timestamp = now` when absent, then assign
`metadados['id'] = n` (the store size before the append). -/
def stampMetadata (n : Nat) (now : String) (m : Option Dict) : Dict :=
  let md := m.getD []
  let md := if dictContains md "timestamp" then md
            else dictSet md "timestamp" (.vStr now)
  dictSet md "id" (.vInt n)

/-- The state and the Python return value of a call to
`adicionar_transcricao` (the function body has no `return`, so the call
evaluates to `None`). -/
structure AddTranscricaoRet where
  state : AudioEmbeddingSystem
  ret : Option Int
deriving DecidableEq, Repr

/-- `AudioEmbeddingSystem.adicionar_transcricao(transcricao, metadados)`. -/
def AudioEmbeddingSystem.adicionar_transcricao (st : AudioEmbeddingSystem)
    (transcricao : List Char) (metadados : Option Dict) (now : String) :
    AddTranscricaoRet :=
  let md := stampMetadata st.transcricoes.length now metadados
  { state := { st with
      transcricoes := st.transcricoes ++ [transcricao],
      metadados := st.metadados ++ [md] },
    ret := none }

/-- Message of the `ValueError` raised by `criar_indice` on an empty store. -/
def msgEmptyAudio : String := "Nenhuma transcrição foi adicionada"

/-- Message of the `ValueError` raised by a search before `criar_indice`. -/
def msgNotIndexed : String :=
  "Índice não foi criado. Execute criar_indice() primeiro"

/-- `AudioEmbeddingSystem.criar_indice()`: reject an empty store, else
batch-encode every transcript in store order and load the vectors into a
fresh flat index. -/
def AudioEmbeddingSystem.criar_indice (emb : List Char → List Int)
    (st : AudioEmbeddingSystem) : Except PyError AudioEmbeddingSystem :=
  if st.transcricoes.isEmpty then .error (.valueError msgEmptyAudio)
  else .ok { st with indice := some ⟨st.transcricoes.map emb⟩ }

/-- One result record: 1-based rank, the joined text and metadata, the
distance and the derived similarity `1 / (1 + distance)`. -/
def mkResultado (pos : Nat) (t : List Char) (m : Dict) (d : Int) :
    SearchResult :=
  { posicao := pos + 1, transcricao := t, metadados := m,
    distancia := d, similaridade := 1 / (1 + (d : ℚ)) }

/-- The result-assembly loop of `buscar_transcricoes`: join each
(distance, id) pair against the parallel lists with Python indexing
(`none` models the `IndexError` of an out-of-range id). -/
def joinAll (st : AudioEmbeddingSystem) :
    Nat → List (Int × Int) → Option (List SearchResult)
  | _, [] => some []
  | i, p :: ps => do
    let t ← pythonGet st.transcricoes p.2
    let m ← pythonGet st.metadados p.2
    let rs ← joinAll st (i + 1) ps
    pure (mkResultado i t m p.1 :: rs)

/-- `AudioEmbeddingSystem.buscar_transcricoes(consulta, k)`. -/
def AudioEmbeddingSystem.buscar_transcricoes (emb : List Char → List Int)
    (st : AudioEmbeddingSystem) (consulta : List Char) (k : Int) :
    Except PyError (List SearchResult) :=
  match st.indice with
  | none => .error (.valueError msgNotIndexed)
  | some idx =>
    match faissSearch idx (emb consulta) k with
    | .error e => .error e
    | .ok pairs =>
      match joinAll st 0 pairs with
      | some rs => .ok rs
      | none => .error .indexError

/-! ## `SistemaRAG` (`exemplo_rag_sistema.py`) -/

/-- One document record appended by `adicionar_documento`. -/
structure Documento where
  id : Nat
  titulo : String
  texto : List Char
  metadados : Dict
deriving DecidableEq, Repr

/-- The mutable state of a `SistemaRAG` instance. -/
structure SistemaRAG where
  documentos : List Documento
  chunks : List (List Char)
  metadados : List Dict
  indice : Option FaissIndex
deriving DecidableEq, Repr

/-- `SistemaRAG.__init__`. -/
def ragInit : SistemaRAG := ⟨[], [], [], none⟩

/-- `SistemaRAG.adicionar_documento(texto, titulo, metadados)`: chunk the
text, append one document record, and append each chunk together with a
metadata record `{'doc_id': ..., 'chunk_id': ..., 'titulo': ..., **metadados}`. -/
def SistemaRAG.adicionar_documento (st : SistemaRAG) (texto : List Char)
    (titulo : String := "") (metadados : Option Dict := none) : SistemaRAG :=
  let md := metadados.getD []
  let chunksDoc := dividir_em_chunks texto
  let docId := st.documentos.length
  let novosMeta := chunksDoc.enum.map (fun p =>
    dictMergeStar
      [("doc_id", .vInt docId), ("chunk_id", .vInt p.1),
       ("titulo", .vStr titulo)] md)
  { documentos := st.documentos ++ [⟨docId, titulo, texto, md⟩],
    chunks := st.chunks ++ chunksDoc,
    metadados := st.metadados ++ novosMeta,
    indice := st.indice }

/-- Message of the `ValueError` raised by `SistemaRAG.criar_indice` when no
chunk is stored. -/
def msgEmptyRag : String := "Nenhum documento foi adicionado"

/-- `SistemaRAG.criar_indice()`: reject an empty chunk list, else
batch-encode every chunk in store order into a fresh flat index. -/
def SistemaRAG.criar_indice (emb : List Char → List Int) (st : SistemaRAG) :
    Except PyError SistemaRAG :=
  if st.chunks.isEmpty then .error (.valueError msgEmptyRag)
  else .ok { st with indice := some ⟨st.chunks.map emb⟩ }

/-- One context record of `recuperar_contexto`. -/
structure ContextItem where
  chunk : List Char
  metadados : Dict
  distancia : Int
  similaridade : ℚ
deriving DecidableEq, Repr

/-- The result-assembly loop of `recuperar_contexto`. -/
def joinContexto (st : SistemaRAG) :
    List (Int × Int) → Option (List ContextItem)
  | [] => some []
  | p :: ps => do
    let c ← pythonGet st.chunks p.2
    let m ← pythonGet st.metadados p.2
    let rs ← joinContexto st ps
    pure (⟨c, m, p.1, 1 / (1 + (p.1 : ℚ))⟩ :: rs)

/-- `SistemaRAG.recuperar_contexto(pergunta, k)`. -/
def SistemaRAG.recuperar_contexto (emb : List Char → List Int)
    (st : SistemaRAG) (pergunta : List Char) (k : Int) :
    Except PyError (List ContextItem) :=
  match st.indice with
  | none => .error (.valueError msgNotIndexed)
  | some idx =>
    match faissSearch idx (emb pergunta) k with
    | .error e => .error e
    | .ok pairs =>
      match joinContexto st pairs with
      | some rs => .ok rs
      | none => .error .indexError

/-! ## Operation sequences

Sequences of add operations applied to a freshly initialised system, for
stating store invariants over every reachable state. -/

/-- Apply a sequence of `adicionar_transcricao` calls (text, optional
metadata, wall-clock timestamp) to an audio system state. -/
def applyAudioOps (st : AudioEmbeddingSystem)
    (ops : List (List Char × Option Dict × String)) : AudioEmbeddingSystem :=
  ops.foldl (fun s o => (s.adicionar_transcricao o.1 o.2.1 o.2.2).state) st

/-- Apply a sequence of `adicionar_documento` calls (text, title, optional
metadata) to a RAG system state. -/
def applyRagOps (st : SistemaRAG)
    (ops : List (List Char × String × Option Dict)) : SistemaRAG :=
  ops.foldl (fun s o => s.adicionar_documento o.1 o.2.1 o.2.2) st

/-! ## Concrete instances used to evaluate the model -/

/-- A concrete embedding provider mapping a text to the one-dimensional
vector holding its length. -/
def embLen : List Char → List Int := fun t => [(t.length : Int)]

/-- A store holding the single transcript "gato" with caller metadata. -/
def audioUm : AudioEmbeddingSystem :=
  (audioInit.adicionar_transcricao ['g', 'a', 't', 'o']
    (some [("falante", Val.vStr "A")]) "T0").state

/-- `audioUm` after `criar_indice` under `embLen`. -/
def audioUmIndexado : AudioEmbeddingSystem :=
  (AudioEmbeddingSystem.criar_indice embLen audioUm).toOption.getD audioInit

/-- A RAG system holding the single document "A." (one chunk), indexed
under `embLen`. -/
def ragUmIndexado : SistemaRAG :=
  (SistemaRAG.criar_indice embLen
    (ragInit.adicionar_documento ['A', '.'] "t" none)).toOption.getD ragInit

/-! ## Chunk-shape vocabulary

Notions used to state the chunker's guarantees: the exact buffer a group
of sentences accumulates to, the chunk it renders to (the buffer with its
trailing space stripped, i.e. the sentences joined by `". "` with a final
`"."`), and well-formedness of a stripped sentence. -/

/-- The running buffer the chunker builds from a group of sentences:
every sentence followed by the normalising `". "` suffix. -/
def bufOf (g : List (List Char)) : List Char :=
  (g.map (fun s => s ++ ['.', ' '])).flatten

/-- The chunk a non-empty sentence group is flushed to: the buffer without
its trailing space — the group's sentences joined by `". "`, ending in
`"."`. -/
def renderChunk (g : List (List Char)) : List Char :=
  (bufOf g).dropLast

/-- A well-formed stripped sentence: non-empty, with non-whitespace first
and last characters (what `str.strip()` outputs when non-empty). -/
def goodSent (s : List Char) : Prop :=
  s ≠ [] ∧ (∀ c, s.head? = some c → pyIsSpace c = false) ∧
    (∀ c, s.getLast? = some c → pyIsSpace c = false)

/-! ## Dictionary and Python-indexing lemmas -/

theorem dictGet?_cons (p : String × Val) (rest : Dict) (k : String) :
    dictGet? (p :: rest) k =
      if p.1 = k then some p.2 else dictGet? rest k := by
  by_cases h : p.1 = k
  · simp [dictGet?, List.find?_cons_of_pos, h]
  · simp [dictGet?, List.find?_cons_of_neg, h]

theorem dictGet?_dictSet_self (d : Dict) (k : String) (v : Val) :
    dictGet? (dictSet d k v) k = some v := by
  induction d with
  | nil => simp [dictSet, dictGet?, List.find?]
  | cons p rest ih =>
    by_cases h : p.1 = k
    · simp [dictSet, h, dictGet?_cons]
    · simp [dictSet, h, dictGet?_cons, ih]

theorem dictGet?_dictSet_ne (d : Dict) (k k' : String) (v : Val)
    (h : k' ≠ k) : dictGet? (dictSet d k v) k' = dictGet? d k' := by
  have hne : k ≠ k' := Ne.symm h
  have hb : (k == k') = false := beq_eq_false_iff_ne.mpr hne
  induction d with
  | nil => simp [dictSet, dictGet?, List.find?, hb]
  | cons p rest ih =>
    by_cases hp : p.1 = k
    · simp [dictSet, hp, dictGet?_cons, hne]
    · simp [dictSet, hp, dictGet?_cons, ih]

theorem dictContains_eq_isSome (d : Dict) (k : String) :
    dictContains d k = (dictGet? d k).isSome := by
  induction d with
  | nil => simp [dictContains, dictGet?, List.find?]
  | cons p rest ih =>
    by_cases h : p.1 = k
    · simp [dictContains, dictGet?_cons, h]
    · have hb : (p.1 == k) = false := beq_eq_false_iff_ne.mpr h
      simpa [dictContains, dictGet?_cons, hb, h] using ih

theorem pythonGet_nonneg (l : List α) (i : Int) (h : 0 ≤ i) :
    pythonGet l i = l.get? i.toNat := by
  simp [pythonGet, h]

theorem pythonGet_neg_one (l : List α) (h : l ≠ []) :
    pythonGet l (-1) = l.getLast? := by
  have hlen : 1 ≤ l.length := List.length_pos.mpr h
  have h1 : ¬ (0 : Int) ≤ -1 := by omega
  have h2 : (0 : Int) ≤ (l.length : Int) + -1 := by omega
  have h3 : ((l.length : Int) + -1).toNat = l.length - 1 := by omega
  simp only [pythonGet, h1, if_false, h2, if_true, h3]
  exact (List.getLast?_eq_get? l).symm

/-! ## Claim C3: behaviour and return value of `adicionar_transcricao` -/

/-- C3 (counterexample): `adicionar_transcricao` does **not** return the
assigned identifier — the Python function body has no `return` statement,
so the call evaluates to `None` (here: `ret = none`, not
`some 0` on the initially empty store). -/
theorem claim_C3_counterexample :
    (audioInit.adicionar_transcricao ['o', 'l', 'a'] none "T0").ret ≠
      some ((audioInit.transcricoes.length : Int)) ∧
    (audioInit.adicionar_transcricao ['o', 'l', 'a'] none "T0").ret = none := by
  decide

/-- C3 (amended): `adicionar_transcricao` appends the text and the metadata
record (defaulting a missing mapping to `{}`, adding a creation timestamp
when absent, stamping the assigned identifier — equal to the number of
stored units before the call — into the record), but returns `None`
rather than the assigned identifier. -/
theorem claim_C3 (st : AudioEmbeddingSystem) (t : List Char)
    (m : Option Dict) (now : String) :
    let r := st.adicionar_transcricao t m now
    r.state.transcricoes = st.transcricoes ++ [t] ∧
    r.state.metadados =
      st.metadados ++ [stampMetadata st.transcricoes.length now m] ∧
    dictGet? (stampMetadata st.transcricoes.length now m) "id" =
      some (.vInt st.transcricoes.length) ∧
    dictContains (stampMetadata st.transcricoes.length now m) "timestamp" =
      true ∧
    r.ret = none := by
  refine ⟨rfl, rfl, ?_, ?_, rfl⟩
  · exact dictGet?_dictSet_self _ _ _
  · rw [dictContains_eq_isSome]
    unfold stampMetadata
    rw [dictGet?_dictSet_ne _ _ _ _ (by decide : "timestamp" ≠ "id")]
    by_cases h : dictContains (m.getD []) "timestamp"
    · simp only [h, if_true]
      rw [dictContains_eq_isSome] at h
      exact h
    · simp only [h, Bool.false_eq_true, if_false]
      rw [dictGet?_dictSet_self]
      rfl

/-! ## Claim C4: non-positive `k` rejected at search time -/

/-- C4: with a built index, a search with `k ≤ 0` fails with the
invalid-argument error (raised by the FAISS index's `k > 0` validation;
the wrapper code performs no check of its own), in both systems. -/
theorem claim_C4 (emb : List Char → List Int) (st : AudioEmbeddingSystem)
    (rst : SistemaRAG) (idxA idxR : FaissIndex) (q : List Char) (k : Int)
    (hA : st.indice = some idxA) (hR : rst.indice = some idxR)
    (hk : k ≤ 0) :
    AudioEmbeddingSystem.buscar_transcricoes emb st q k =
      .error .faissKMustBePositive ∧
    SistemaRAG.recuperar_contexto emb rst q k =
      .error .faissKMustBePositive := by
  constructor
  · simp [AudioEmbeddingSystem.buscar_transcricoes, hA, faissSearch, hk]
  · simp [SistemaRAG.recuperar_contexto, hR, faissSearch, hk]

/-! ## Claim C7: search before build, build on empty store -/

/-- C7: searching while no index has been built fails with the
`NotIndexed` error, and building over a store with zero units fails with
the `EmptyCorpus` error (audio system and RAG system alike). -/
theorem claim_C7 (emb : List Char → List Int) (st stE : AudioEmbeddingSystem)
    (rstE : SistemaRAG) (q : List Char) (k : Int)
    (h1 : st.indice = none) (h2 : stE.transcricoes = [])
    (h3 : rstE.chunks = []) :
    AudioEmbeddingSystem.buscar_transcricoes emb st q k =
      .error (.valueError msgNotIndexed) ∧
    AudioEmbeddingSystem.criar_indice emb stE =
      .error (.valueError msgEmptyAudio) ∧
    SistemaRAG.criar_indice emb rstE = .error (.valueError msgEmptyRag) := by
  refine ⟨?_, ?_, ?_⟩
  · simp [AudioEmbeddingSystem.buscar_transcricoes, h1]
  · simp [AudioEmbeddingSystem.criar_indice, h2]
  · simp [SistemaRAG.criar_indice, h3]

/-- C7 (witness): on freshly initialised systems the two failures occur
concretely. -/
theorem claim_C7_witness :
    AudioEmbeddingSystem.buscar_transcricoes embLen audioInit ['q'] 3 =
      .error (.valueError msgNotIndexed) ∧
    AudioEmbeddingSystem.criar_indice embLen audioInit =
      .error (.valueError msgEmptyAudio) ∧
    SistemaRAG.criar_indice embLen ragInit =
      .error (.valueError msgEmptyRag) :=
  claim_C7 embLen audioInit audioInit ragInit ['q'] 3 rfl rfl rfl

/-! ## Claim C8: idempotence of `criar_indice` -/

/-- C8: building the index twice in a row with no intervening add is the
same as building it once — the resulting states (hence index contents) are
equal and every subsequent search returns identical results; likewise for
the RAG system. -/
theorem claim_C8 (emb : List Char → List Int) (st : AudioEmbeddingSystem)
    (rst : SistemaRAG) (q : List Char) (k : Int) :
    (AudioEmbeddingSystem.criar_indice emb st).bind
        (AudioEmbeddingSystem.criar_indice emb) =
      AudioEmbeddingSystem.criar_indice emb st ∧
    (SistemaRAG.criar_indice emb rst).bind (SistemaRAG.criar_indice emb) =
      SistemaRAG.criar_indice emb rst ∧
    ((AudioEmbeddingSystem.criar_indice emb st).bind
        (AudioEmbeddingSystem.criar_indice emb)).bind
        (fun s => AudioEmbeddingSystem.buscar_transcricoes emb s q k) =
      (AudioEmbeddingSystem.criar_indice emb st).bind
        (fun s => AudioEmbeddingSystem.buscar_transcricoes emb s q k) := by
  have h1 : (AudioEmbeddingSystem.criar_indice emb st).bind
      (AudioEmbeddingSystem.criar_indice emb) =
      AudioEmbeddingSystem.criar_indice emb st := by
    by_cases he : st.transcricoes.isEmpty <;>
      simp [AudioEmbeddingSystem.criar_indice, he, Except.bind]
  have h2 : (SistemaRAG.criar_indice emb rst).bind
      (SistemaRAG.criar_indice emb) = SistemaRAG.criar_indice emb rst := by
    by_cases he : rst.chunks.isEmpty <;>
      simp [SistemaRAG.criar_indice, he, Except.bind]
  exact ⟨h1, h2, by rw [h1]⟩

/-! ## Claim C9: in-place stamping of caller-supplied metadata -/

/-- C9: when a caller-supplied mapping `m` is passed, the record the store
retains is exactly `m` after stamping (the code mutates the caller's dict
in place and appends that same object): the key `id` is written with the
assigned identifier, `timestamp` is written only when absent, and every
other key keeps its original value. -/
theorem claim_C9 (st : AudioEmbeddingSystem) (t : List Char) (m : Dict)
    (now : String) (key : String) (h1 : key ≠ "id")
    (h2 : key ≠ "timestamp") :
    (st.adicionar_transcricao t (some m) now).state.metadados.getLast? =
      some (stampMetadata st.transcricoes.length now (some m)) ∧
    dictGet? (stampMetadata st.transcricoes.length now (some m)) key =
      dictGet? m key ∧
    dictGet? (stampMetadata st.transcricoes.length now (some m)) "id" =
      some (.vInt st.transcricoes.length) ∧
    (dictContains m "timestamp" = true →
      dictGet? (stampMetadata st.transcricoes.length now (some m))
        "timestamp" = dictGet? m "timestamp") ∧
    (dictContains m "timestamp" = false →
      dictGet? (stampMetadata st.transcricoes.length now (some m))
        "timestamp" = some (.vStr now)) := by
  refine ⟨?_, ?_, ?_, ?_, ?_⟩
  · simp [AudioEmbeddingSystem.adicionar_transcricao]
  · unfold stampMetadata
    rw [dictGet?_dictSet_ne _ _ _ _ h1]
    by_cases h : dictContains (Option.getD (some m) []) "timestamp"
    · simp only [h, if_true]
      rfl
    · simp only [h, Bool.false_eq_true, if_false]
      simp only [Option.getD]
      rw [dictGet?_dictSet_ne _ _ _ _ h2]
  · exact dictGet?_dictSet_self _ _ _
  · intro h
    unfold stampMetadata
    rw [dictGet?_dictSet_ne _ _ _ _ (by decide : "timestamp" ≠ "id")]
    simp only [Option.getD, h, if_true]
  · intro h
    unfold stampMetadata
    rw [dictGet?_dictSet_ne _ _ _ _ (by decide : "timestamp" ≠ "id")]
    simp only [Option.getD, h, Bool.false_eq_true, if_false]
    exact dictGet?_dictSet_self _ _ _

/-- C9 (witness): a caller key distinct from `id` and `timestamp` survives
the stamping with its value unchanged. -/
theorem claim_C9_witness :
    dictGet? (stampMetadata 0 "T0" (some [("falante", Val.vStr "A")]))
      "falante" = dictGet? [("falante", Val.vStr "A")] "falante" :=
  (claim_C9 audioInit ['x'] [("falante", Val.vStr "A")] "T0" "falante"
    (by decide) (by decide)).2.1

/-! ## Claim C10: documents whose text yields zero chunks -/

/-- C10: when the chunker returns no chunks for a text, `adicionar_documento`
still appends a document record (consuming a fresh `doc_id`) while the
chunk and metadata lists are unchanged; if no document has contributed a
chunk, a subsequent `criar_indice` still fails with the empty-corpus
error. -/
theorem claim_C10 (emb : List Char → List Int) (st : SistemaRAG)
    (texto : List Char) (titulo : String) (md : Option Dict)
    (h : dividir_em_chunks texto 500 = []) :
    let st' := st.adicionar_documento texto titulo md
    st'.documentos.length = st.documentos.length + 1 ∧
    st'.documentos.getLast? =
      some ⟨st.documentos.length, titulo, texto, md.getD []⟩ ∧
    st'.chunks = st.chunks ∧
    st'.metadados = st.metadados ∧
    (st.chunks = [] →
      SistemaRAG.criar_indice emb st' = .error (.valueError msgEmptyRag)) := by
  refine ⟨?_, ?_, ?_, ?_, ?_⟩
  · simp [SistemaRAG.adicionar_documento]
  · simp [SistemaRAG.adicionar_documento]
  · simp [SistemaRAG.adicionar_documento, h]
  · simp [SistemaRAG.adicionar_documento, h]
  · intro hc
    simp [SistemaRAG.criar_indice, SistemaRAG.adicionar_documento, h, hc]

/-- C10 (witness): adding the punctuation-only document `"..."` to a fresh
system leaves the chunk store empty, and building then fails with the
empty-corpus error even though one document was added. -/
theorem claim_C10_witness :
    SistemaRAG.criar_indice embLen
        (ragInit.adicionar_documento ['.', '.', '.'] "t" none) =
      .error (.valueError msgEmptyRag) :=
  (claim_C10 embLen ragInit ['.', '.', '.'] "t" none (by decide)).2.2.2.2 rfl

/-! ## Claim C2: parallel-list invariant of the stores -/

theorem audio_inv_step (st : AudioEmbeddingSystem) (t : List Char)
    (m : Option Dict) (now : String)
    (hlen : st.metadados.length = st.transcricoes.length)
    (hid : ∀ i d, st.metadados.get? i = some d →
      dictGet? d "id" = some (.vInt i)) :
    (st.adicionar_transcricao t m now).state.metadados.length =
      (st.adicionar_transcricao t m now).state.transcricoes.length ∧
    ∀ i d, (st.adicionar_transcricao t m now).state.metadados.get? i =
      some d → dictGet? d "id" = some (.vInt i) := by
  constructor
  · simp [AudioEmbeddingSystem.adicionar_transcricao, hlen]
  · intro i d hget
    simp only [AudioEmbeddingSystem.adicionar_transcricao] at hget
    by_cases hi : i < st.metadados.length
    · rw [List.get?_append hi] at hget
      exact hid i d hget
    · push_neg at hi
      rw [List.get?_append_right hi] at hget
      rcases Nat.lt_or_ge (i - st.metadados.length) 1 with h1 | h1
      · have hieq : i = st.metadados.length := by omega
        have h0 : i - st.metadados.length = 0 := by omega
        rw [h0] at hget
        simp only [List.get?] at hget
        cases hget
        rw [hieq, hlen]
        exact dictGet?_dictSet_self _ _ _
      · have : ([stampMetadata st.transcricoes.length now m].get?
            (i - st.metadados.length)) = none := by
          apply List.get?_eq_none.mpr
          simpa using h1
        rw [this] at hget
        cases hget

theorem audio_inv_fold (ops : List (List Char × Option Dict × String)) :
    ∀ st : AudioEmbeddingSystem,
    st.metadados.length = st.transcricoes.length →
    (∀ i d, st.metadados.get? i = some d →
      dictGet? d "id" = some (.vInt i)) →
    (applyAudioOps st ops).metadados.length =
      (applyAudioOps st ops).transcricoes.length ∧
    ∀ i d, (applyAudioOps st ops).metadados.get? i = some d →
      dictGet? d "id" = some (.vInt i) := by
  induction ops with
  | nil => intro st hlen hid; exact ⟨hlen, hid⟩
  | cons o rest ih =>
    intro st hlen hid
    have hstep := audio_inv_step st o.1 o.2.1 o.2.2 hlen hid
    have : applyAudioOps st (o :: rest) =
        applyAudioOps (st.adicionar_transcricao o.1 o.2.1 o.2.2).state rest :=
      rfl
    rw [this]
    exact ih _ hstep.1 hstep.2

theorem rag_inv_step (st : SistemaRAG) (texto : List Char) (titulo : String)
    (md : Option Dict) (hlen : st.metadados.length = st.chunks.length) :
    (st.adicionar_documento texto titulo md).metadados.length =
      (st.adicionar_documento texto titulo md).chunks.length := by
  simp [SistemaRAG.adicionar_documento, hlen]

theorem rag_inv_fold (ops : List (List Char × String × Option Dict)) :
    ∀ st : SistemaRAG, st.metadados.length = st.chunks.length →
    (applyRagOps st ops).metadados.length = (applyRagOps st ops).chunks.length := by
  induction ops with
  | nil => intro st hlen; exact hlen
  | cons o rest ih =>
    intro st hlen
    exact ih _ (rag_inv_step st o.1 o.2.1 o.2.2 hlen)

/-- C2 (counterexample): after adding the document `"A."` to a fresh RAG
system, the store holds one chunk whose metadata record does **not**
contain the key `id` at all (its keys are `doc_id`, `chunk_id`,
`titulo`), so `metadata[0]['id'] == 0` fails for `adicionar_documento`. -/
theorem claim_C2_counterexample :
    ((applyRagOps ragInit [(['A', '.'], "t", none)]).metadados.get? 0).map
      (fun d => dictContains d "id") = some false := by
  decide

/-- C2 (amended): after every sequence of adds on an initially empty store
the units list and the metadata list have equal length in both systems;
the audio store's record at position `i` contains `'id' = i`, while the
RAG chunk records carry `doc_id`/`chunk_id`/`titulo` keys instead of an
`id` key. -/
theorem claim_C2 (opsA : List (List Char × Option Dict × String))
    (opsR : List (List Char × String × Option Dict)) :
    (applyAudioOps audioInit opsA).metadados.length =
      (applyAudioOps audioInit opsA).transcricoes.length ∧
    (∀ i d, (applyAudioOps audioInit opsA).metadados.get? i = some d →
      dictGet? d "id" = some (.vInt i)) ∧
    (applyRagOps ragInit opsR).metadados.length =
      (applyRagOps ragInit opsR).chunks.length := by
  have hA := audio_inv_fold opsA audioInit rfl (by intro i d h; cases i <;> cases h)
  exact ⟨hA.1, hA.2, rag_inv_fold opsR ragInit rfl⟩

/-- C2 (witness): after two audio adds, the record at position 1 carries
`id = 1`. -/
theorem claim_C2_witness :
    dictGet? [("timestamp", Val.vStr "T1"), ("id", Val.vInt 1)] "id" =
      some (.vInt 1) :=
  (claim_C2 [(['a'], none, "T0"), (['b'], none, "T1")] []).2.1 1
    [("timestamp", Val.vStr "T1"), ("id", Val.vInt 1)] (by decide)

/-- C4 (witness): on concretely built one-unit indexes, `k = 0` fails with
the invalid-argument error in both systems. -/
theorem claim_C4_witness :
    AudioEmbeddingSystem.buscar_transcricoes embLen audioUmIndexado ['q'] 0 =
      .error .faissKMustBePositive ∧
    SistemaRAG.recuperar_contexto embLen ragUmIndexado ['q'] 0 =
      .error .faissKMustBePositive :=
  claim_C4 embLen audioUmIndexado ragUmIndexado ⟨[[4]]⟩ ⟨[[2]]⟩ ['q'] 0
    (by decide) (by decide) (by decide)

/-! ## Claim C1: shape and content of search results -/

theorem faissPairs_length (idx : FaissIndex) (q : List Int) :
    (faissPairs idx q).length = idx.vecs.length := by
  simp [faissPairs, List.length_insertionSort, List.enum_length]

theorem faissPairs_sorted (idx : FaissIndex) (q : List Int) :
    List.Pairwise lexRel (faissPairs idx q) :=
  List.sorted_insertionSort lexRel _

theorem faissPairs_mem (idx : FaissIndex) (q : List Int) (p : Int × Int)
    (h : p ∈ faissPairs idx q) :
    0 ≤ p.2 ∧ p.2.toNat < idx.vecs.length := by
  have hp : p ∈ (idx.vecs.enum).map (fun e => (sqDist q e.2, (e.1 : Int))) :=
    (List.perm_insertionSort lexRel _).mem_iff.mp h
  obtain ⟨⟨i, v⟩, hmem, rfl⟩ := List.mem_map.mp hp
  have hi := List.mem_enum hmem
  exact ⟨Int.ofNat_nonneg i, by simpa using hi.1⟩

theorem faissPairs_nodup_ids (idx : FaissIndex) (q : List Int) :
    ((faissPairs idx q).map Prod.snd).Nodup := by
  have hperm : ((faissPairs idx q).map Prod.snd).Perm
      (((idx.vecs.enum).map (fun e => (sqDist q e.2, (e.1 : Int)))).map
        Prod.snd) :=
    (List.perm_insertionSort lexRel _).map Prod.snd
  apply hperm.symm.nodup
  rw [List.map_map]
  have : (Prod.snd ∘ fun e : Nat × List Int => (sqDist q e.2, (e.1 : Int))) =
      (fun n : Nat => (n : Int)) ∘ Prod.fst := rfl
  rw [this, ← List.map_map, List.enum_map_fst]
  exact (List.nodup_range _).map (fun a b h => Int.ofNat.inj h)

theorem faissPairs_pairwise_lexLt (idx : FaissIndex) (q : List Int) :
    List.Pairwise lexLt (faissPairs idx q) := by
  have hne : List.Pairwise (fun a b : Int × Int => a.2 ≠ b.2)
      (faissPairs idx q) :=
    List.pairwise_map.mp (faissPairs_nodup_ids idx q)
  refine ((faissPairs_sorted idx q).and hne).imp ?_
  rintro a b ⟨hr | ⟨he, hle⟩, hne'⟩
  · exact Or.inl hr
  · exact Or.inr ⟨he, lt_of_le_of_ne hle hne'⟩

theorem joinAll_spec (st : AudioEmbeddingSystem) :
    ∀ (pairs : List (Int × Int)) (pos : Nat),
    (∀ p ∈ pairs, (pythonGet st.transcricoes p.2).isSome ∧
      (pythonGet st.metadados p.2).isSome) →
    ∃ rs, joinAll st pos pairs = some rs ∧ rs.length = pairs.length ∧
      ∀ i p, pairs.get? i = some p → ∃ r, rs.get? i = some r ∧
        r.distancia = p.1 ∧
        pythonGet st.transcricoes p.2 = some r.transcricao ∧
        pythonGet st.metadados p.2 = some r.metadados := by
  intro pairs
  induction pairs with
  | nil =>
    intro pos _
    exact ⟨[], rfl, rfl, fun i p h => by cases h⟩
  | cons p ps ih =>
    intro pos hvalid
    obtain ⟨ht, hm⟩ := hvalid p (List.mem_cons_self p ps)
    obtain ⟨t, ht'⟩ := Option.isSome_iff_exists.mp ht
    obtain ⟨m, hm'⟩ := Option.isSome_iff_exists.mp hm
    obtain ⟨rs', hjoin, hlen, hcorr⟩ :=
      ih (pos + 1) (fun q hq => hvalid q (List.mem_cons_of_mem p hq))
    refine ⟨mkResultado pos t m p.1 :: rs', ?_, by simp [hlen], ?_⟩
    · simp [joinAll, ht', hm', hjoin]
    · intro i q hq
      cases i with
      | zero =>
        simp only [List.get?] at hq
        cases hq
        exact ⟨mkResultado pos t m p.1, rfl, rfl, ht', hm'⟩
      | succ j =>
        simp only [List.get?] at hq ⊢
        exact hcorr j q hq

theorem criar_indice_ok (emb : List Char → List Int)
    (st st' : AudioEmbeddingSystem)
    (hb : AudioEmbeddingSystem.criar_indice emb st = .ok st') :
    st.transcricoes ≠ [] ∧
    st' = { st with indice := some ⟨st.transcricoes.map emb⟩ } := by
  unfold AudioEmbeddingSystem.criar_indice at hb
  by_cases he : st.transcricoes.isEmpty
  · simp [he] at hb
  · simp only [he, Bool.false_eq_true, if_false, Except.ok.injEq] at hb
    exact ⟨fun hnil => he (by simp [hnil]), hb.symm⟩

/-- C1 (counterexample): over a corpus of `n = 1` unit, a search with
`k = 2` returns 2 results, not `min(2, 1) = 1`; the padding entry with
identifier `-1` is joined against the store by Python negative indexing,
duplicating the last stored unit's text. -/
theorem claim_C1_counterexample :
    (AudioEmbeddingSystem.buscar_transcricoes embLen audioUmIndexado
        ['q'] 2).map List.length = .ok 2 ∧
    min 2 audioUmIndexado.transcricoes.length = 1 ∧
    (AudioEmbeddingSystem.buscar_transcricoes embLen audioUmIndexado
        ['q'] 2).map (List.map (fun r => r.transcricao)) =
      .ok [['g', 'a', 't', 'o'], ['g', 'a', 't', 'o']] := by
  decide

/-- Full characterisation of `buscar_transcricoes` on a built index with
parallel metadata: exactly `k` results, the first `min(k, n)` following
the strictly lex-ordered (distance, identifier) pairs and joining the
store at their identifiers, the rest being the FAISS `-1` padding joined
to the last stored unit. -/
theorem buscar_transcricoes_spec (emb : List Char → List Int)
    (st st' : AudioEmbeddingSystem) (q : List Char) (k : Int)
    (hmeta : st.metadados.length = st.transcricoes.length)
    (hb : AudioEmbeddingSystem.criar_indice emb st = .ok st')
    (hk : 1 ≤ k) :
    ∃ rs, AudioEmbeddingSystem.buscar_transcricoes emb st' q k = .ok rs ∧
      rs.length = k.toNat ∧
      List.Pairwise lexLt (faissPairs ⟨st.transcricoes.map emb⟩ (emb q)) ∧
      (∀ i p, i < min k.toNat st.transcricoes.length →
        (faissPairs ⟨st.transcricoes.map emb⟩ (emb q)).get? i = some p →
        ∃ r, rs.get? i = some r ∧ r.distancia = p.1 ∧ 0 ≤ p.2 ∧
          p.2.toNat < st.transcricoes.length ∧
          st.transcricoes.get? p.2.toNat = some r.transcricao ∧
          st.metadados.get? p.2.toNat = some r.metadados) ∧
      (∀ i, min k.toNat st.transcricoes.length ≤ i → i < k.toNat →
        ∃ r, rs.get? i = some r ∧ r.distancia = faissMaxDist ∧
          st.transcricoes.getLast? = some r.transcricao ∧
          st.metadados.getLast? = some r.metadados) := by
  obtain ⟨hne, hst'⟩ := criar_indice_ok emb st st' hb
  subst hst'
  have hn1 : 1 ≤ st.transcricoes.length := List.length_pos.mpr hne
  have hmne : st.metadados ≠ [] := by
    rw [← List.length_pos, hmeta]; omega
  have hplen : (faissPairs ⟨st.transcricoes.map emb⟩ (emb q)).length =
      st.transcricoes.length := by
    rw [faissPairs_length]; simp
  have hk0 : ¬ k ≤ 0 := by omega
  have hkt : 1 ≤ k.toNat := by omega
  have hvalid : ∀ p ∈ (faissPairs ⟨st.transcricoes.map emb⟩ (emb q)).take
      k.toNat ++ List.replicate (k.toNat - st.transcricoes.length)
        ((faissMaxDist : Int), (-1 : Int)),
      (pythonGet st.transcricoes p.2).isSome ∧
      (pythonGet st.metadados p.2).isSome := by
    intro p hp
    rcases List.mem_append.mp hp with hp1 | hp2
    · have hmem : p ∈ faissPairs ⟨st.transcricoes.map emb⟩ (emb q) :=
        (List.take_sublist _ _).subset hp1
      obtain ⟨hp0, hplt⟩ := faissPairs_mem _ _ p hmem
      simp only [List.length_map] at hplt
      constructor
      · rw [pythonGet_nonneg _ _ hp0,
          List.get?_eq_get (by omega : p.2.toNat < st.transcricoes.length)]
        rfl
      · rw [pythonGet_nonneg _ _ hp0,
          List.get?_eq_get (by omega : p.2.toNat < st.metadados.length)]
        rfl
    · have hpe := List.eq_of_mem_replicate hp2
      subst hpe
      constructor
      · rw [pythonGet_neg_one _ hne]
        exact (List.getLast?_isSome.mpr hne)
      · rw [pythonGet_neg_one _ hmne]
        exact (List.getLast?_isSome.mpr hmne)
  obtain ⟨rs, hjoin, hlen, hcorr⟩ :=
    joinAll_spec { st with indice := some ⟨st.transcricoes.map emb⟩ }
      ((faissPairs ⟨st.transcricoes.map emb⟩ (emb q)).take k.toNat ++
        List.replicate (k.toNat - st.transcricoes.length)
          ((faissMaxDist : Int), (-1 : Int))) 0 hvalid
  have hbuscar : AudioEmbeddingSystem.buscar_transcricoes emb
      { st with indice := some ⟨st.transcricoes.map emb⟩ } q k = .ok rs := by
    unfold AudioEmbeddingSystem.buscar_transcricoes
    have hsearch : faissSearch ⟨st.transcricoes.map emb⟩ (emb q) k =
        .ok ((faissPairs ⟨st.transcricoes.map emb⟩ (emb q)).take k.toNat ++
          List.replicate (k.toNat - st.transcricoes.length)
            ((faissMaxDist : Int), (-1 : Int))) := by
      simp [faissSearch, hk0]
    simp only [hsearch]
    rw [hjoin]
  refine ⟨rs, hbuscar, ?_, faissPairs_pairwise_lexLt _ _, ?_, ?_⟩
  · rw [hlen]
    rw [List.length_append, List.length_take, List.length_replicate, hplen]
    omega
  · intro i p hi hgetp
    have hgetfull : ((faissPairs ⟨st.transcricoes.map emb⟩ (emb q)).take
        k.toNat ++ List.replicate (k.toNat - st.transcricoes.length)
          ((faissMaxDist : Int), (-1 : Int))).get? i = some p := by
      rw [List.get?_append (by rw [List.length_take, hplen]; omega),
        List.get?_take (by omega : i < k.toNat)]
      exact hgetp
    obtain ⟨r, hr, hd, htr, hmd⟩ := hcorr i p hgetfull
    have hmem : p ∈ faissPairs ⟨st.transcricoes.map emb⟩ (emb q) :=
      List.get?_mem hgetp
    obtain ⟨hp0, hplt⟩ := faissPairs_mem _ _ p hmem
    simp only [List.length_map] at hplt
    rw [pythonGet_nonneg _ _ hp0] at htr hmd
    exact ⟨r, hr, hd, hp0, hplt, htr, hmd⟩
  · intro i hmin hik
    have hgetfull : ((faissPairs ⟨st.transcricoes.map emb⟩ (emb q)).take
        k.toNat ++ List.replicate (k.toNat - st.transcricoes.length)
          ((faissMaxDist : Int), (-1 : Int))).get? i =
        some ((faissMaxDist : Int), (-1 : Int)) := by
      rw [List.get?_append_right (by rw [List.length_take, hplen]; omega)]
      rw [List.length_take, hplen, List.get?_eq_getElem?,
        List.getElem?_replicate]
      rw [if_pos (by omega)]
    obtain ⟨r, hr, hd, htr, hmd⟩ := hcorr i _ hgetfull
    rw [pythonGet_neg_one _ hne] at htr
    rw [pythonGet_neg_one _ hmne] at hmd
    exact ⟨r, hr, hd, htr, hmd⟩

theorem joinContexto_spec (st : SistemaRAG) :
    ∀ (pairs : List (Int × Int)),
    (∀ p ∈ pairs, (pythonGet st.chunks p.2).isSome ∧
      (pythonGet st.metadados p.2).isSome) →
    ∃ rs, joinContexto st pairs = some rs ∧ rs.length = pairs.length ∧
      ∀ i p, pairs.get? i = some p → ∃ r, rs.get? i = some r ∧
        r.distancia = p.1 ∧
        pythonGet st.chunks p.2 = some r.chunk ∧
        pythonGet st.metadados p.2 = some r.metadados := by
  intro pairs
  induction pairs with
  | nil =>
    exact fun _ => ⟨[], rfl, rfl, fun i p h => by cases h⟩
  | cons p ps ih =>
    intro hvalid
    obtain ⟨ht, hm⟩ := hvalid p (List.mem_cons_self p ps)
    obtain ⟨t, ht'⟩ := Option.isSome_iff_exists.mp ht
    obtain ⟨m, hm'⟩ := Option.isSome_iff_exists.mp hm
    obtain ⟨rs', hjoin, hlen, hcorr⟩ :=
      ih (fun q hq => hvalid q (List.mem_cons_of_mem p hq))
    refine ⟨⟨t, m, p.1, 1 / (1 + (p.1 : ℚ))⟩ :: rs', ?_, by simp [hlen], ?_⟩
    · simp [joinContexto, ht', hm', hjoin]
    · intro i q hq
      cases i with
      | zero =>
        simp only [List.get?] at hq
        cases hq
        exact ⟨⟨t, m, p.1, 1 / (1 + (p.1 : ℚ))⟩, rfl, rfl, ht', hm'⟩
      | succ j =>
        simp only [List.get?] at hq ⊢
        exact hcorr j q hq

theorem criar_indice_rag_ok (emb : List Char → List Int)
    (st st' : SistemaRAG) (hb : SistemaRAG.criar_indice emb st = .ok st') :
    st.chunks ≠ [] ∧
    st' = { st with indice := some ⟨st.chunks.map emb⟩ } := by
  unfold SistemaRAG.criar_indice at hb
  by_cases he : st.chunks.isEmpty
  · simp [he] at hb
  · simp only [he, Bool.false_eq_true, if_false, Except.ok.injEq] at hb
    exact ⟨fun hnil => he (by simp [hnil]), hb.symm⟩

/-- Full characterisation of `recuperar_contexto` on a built index with
parallel metadata, mirroring `buscar_transcricoes_spec` for the RAG
system's chunk store. -/
theorem recuperar_contexto_spec (emb : List Char → List Int)
    (rst rst' : SistemaRAG) (q : List Char) (k : Int)
    (hmeta : rst.metadados.length = rst.chunks.length)
    (hb : SistemaRAG.criar_indice emb rst = .ok rst')
    (hk : 1 ≤ k) :
    ∃ cs, SistemaRAG.recuperar_contexto emb rst' q k = .ok cs ∧
      cs.length = k.toNat ∧
      List.Pairwise lexLt (faissPairs ⟨rst.chunks.map emb⟩ (emb q)) ∧
      (∀ i p, i < min k.toNat rst.chunks.length →
        (faissPairs ⟨rst.chunks.map emb⟩ (emb q)).get? i = some p →
        ∃ r, cs.get? i = some r ∧ r.distancia = p.1 ∧ 0 ≤ p.2 ∧
          p.2.toNat < rst.chunks.length ∧
          rst.chunks.get? p.2.toNat = some r.chunk ∧
          rst.metadados.get? p.2.toNat = some r.metadados) ∧
      (∀ i, min k.toNat rst.chunks.length ≤ i → i < k.toNat →
        ∃ r, cs.get? i = some r ∧ r.distancia = faissMaxDist ∧
          rst.chunks.getLast? = some r.chunk ∧
          rst.metadados.getLast? = some r.metadados) := by
  obtain ⟨hne, hst'⟩ := criar_indice_rag_ok emb rst rst' hb
  subst hst'
  have hn1 : 1 ≤ rst.chunks.length := List.length_pos.mpr hne
  have hmne : rst.metadados ≠ [] := by
    rw [← List.length_pos, hmeta]; omega
  have hplen : (faissPairs ⟨rst.chunks.map emb⟩ (emb q)).length =
      rst.chunks.length := by
    rw [faissPairs_length]; simp
  have hk0 : ¬ k ≤ 0 := by omega
  have hkt : 1 ≤ k.toNat := by omega
  have hvalid : ∀ p ∈ (faissPairs ⟨rst.chunks.map emb⟩ (emb q)).take
      k.toNat ++ List.replicate (k.toNat - rst.chunks.length)
        ((faissMaxDist : Int), (-1 : Int)),
      (pythonGet rst.chunks p.2).isSome ∧
      (pythonGet rst.metadados p.2).isSome := by
    intro p hp
    rcases List.mem_append.mp hp with hp1 | hp2
    · have hmem : p ∈ faissPairs ⟨rst.chunks.map emb⟩ (emb q) :=
        (List.take_sublist _ _).subset hp1
      obtain ⟨hp0, hplt⟩ := faissPairs_mem _ _ p hmem
      simp only [List.length_map] at hplt
      constructor
      · rw [pythonGet_nonneg _ _ hp0,
          List.get?_eq_get (by omega : p.2.toNat < rst.chunks.length)]
        rfl
      · rw [pythonGet_nonneg _ _ hp0,
          List.get?_eq_get (by omega : p.2.toNat < rst.metadados.length)]
        rfl
    · have hpe := List.eq_of_mem_replicate hp2
      subst hpe
      constructor
      · rw [pythonGet_neg_one _ hne]
        exact (List.getLast?_isSome.mpr hne)
      · rw [pythonGet_neg_one _ hmne]
        exact (List.getLast?_isSome.mpr hmne)
  obtain ⟨cs, hjoin, hlen, hcorr⟩ :=
    joinContexto_spec { rst with indice := some ⟨rst.chunks.map emb⟩ }
      ((faissPairs ⟨rst.chunks.map emb⟩ (emb q)).take k.toNat ++
        List.replicate (k.toNat - rst.chunks.length)
          ((faissMaxDist : Int), (-1 : Int))) hvalid
  have hbuscar : SistemaRAG.recuperar_contexto emb
      { rst with indice := some ⟨rst.chunks.map emb⟩ } q k = .ok cs := by
    unfold SistemaRAG.recuperar_contexto
    have hsearch : faissSearch ⟨rst.chunks.map emb⟩ (emb q) k =
        .ok ((faissPairs ⟨rst.chunks.map emb⟩ (emb q)).take k.toNat ++
          List.replicate (k.toNat - rst.chunks.length)
            ((faissMaxDist : Int), (-1 : Int))) := by
      simp [faissSearch, hk0]
    simp only [hsearch]
    rw [hjoin]
  refine ⟨cs, hbuscar, ?_, faissPairs_pairwise_lexLt _ _, ?_, ?_⟩
  · rw [hlen]
    rw [List.length_append, List.length_take, List.length_replicate, hplen]
    omega
  · intro i p hi hgetp
    have hgetfull : ((faissPairs ⟨rst.chunks.map emb⟩ (emb q)).take
        k.toNat ++ List.replicate (k.toNat - rst.chunks.length)
          ((faissMaxDist : Int), (-1 : Int))).get? i = some p := by
      rw [List.get?_append (by rw [List.length_take, hplen]; omega),
        List.get?_take (by omega : i < k.toNat)]
      exact hgetp
    obtain ⟨r, hr, hd, htr, hmd⟩ := hcorr i p hgetfull
    have hmem : p ∈ faissPairs ⟨rst.chunks.map emb⟩ (emb q) :=
      List.get?_mem hgetp
    obtain ⟨hp0, hplt⟩ := faissPairs_mem _ _ p hmem
    simp only [List.length_map] at hplt
    rw [pythonGet_nonneg _ _ hp0] at htr hmd
    exact ⟨r, hr, hd, hp0, hplt, htr, hmd⟩
  · intro i hmin hik
    have hgetfull : ((faissPairs ⟨rst.chunks.map emb⟩ (emb q)).take
        k.toNat ++ List.replicate (k.toNat - rst.chunks.length)
          ((faissMaxDist : Int), (-1 : Int))).get? i =
        some ((faissMaxDist : Int), (-1 : Int)) := by
      rw [List.get?_append_right (by rw [List.length_take, hplen]; omega)]
      rw [List.length_take, hplen, List.get?_eq_getElem?,
        List.getElem?_replicate]
      rw [if_pos (by omega)]
    obtain ⟨r, hr, hd, htr, hmd⟩ := hcorr i _ hgetfull
    rw [pythonGet_neg_one _ hne] at htr
    rw [pythonGet_neg_one _ hmne] at hmd
    exact ⟨r, hr, hd, htr, hmd⟩

/-- C1 (amended): in both systems, over a built index on `n` units with
parallel metadata, `search(q, k)` for `k ≥ 1` returns exactly `k` results
(not `min(k, n)`): the first `min(k, n)` follow the (distance, identifier)
pairs in strictly increasing lexicographic order — non-decreasing
distance, ties broken by ascending identifier — each joined to the stored
unit's text and metadata at its identifier; the remaining `k - n` are
FAISS padding entries with identifier `-1`, joined by Python negative
indexing to the **last** stored unit. -/
theorem claim_C1 (emb : List Char → List Int)
    (st st' : AudioEmbeddingSystem) (rst rst' : SistemaRAG)
    (q : List Char) (k : Int)
    (hmetaA : st.metadados.length = st.transcricoes.length)
    (hbA : AudioEmbeddingSystem.criar_indice emb st = .ok st')
    (hmetaR : rst.metadados.length = rst.chunks.length)
    (hbR : SistemaRAG.criar_indice emb rst = .ok rst')
    (hk : 1 ≤ k) :
    (∃ rs, AudioEmbeddingSystem.buscar_transcricoes emb st' q k = .ok rs ∧
      rs.length = k.toNat ∧
      List.Pairwise lexLt (faissPairs ⟨st.transcricoes.map emb⟩ (emb q)) ∧
      (∀ i p, i < min k.toNat st.transcricoes.length →
        (faissPairs ⟨st.transcricoes.map emb⟩ (emb q)).get? i = some p →
        ∃ r, rs.get? i = some r ∧ r.distancia = p.1 ∧ 0 ≤ p.2 ∧
          p.2.toNat < st.transcricoes.length ∧
          st.transcricoes.get? p.2.toNat = some r.transcricao ∧
          st.metadados.get? p.2.toNat = some r.metadados) ∧
      (∀ i, min k.toNat st.transcricoes.length ≤ i → i < k.toNat →
        ∃ r, rs.get? i = some r ∧ r.distancia = faissMaxDist ∧
          st.transcricoes.getLast? = some r.transcricao ∧
          st.metadados.getLast? = some r.metadados)) ∧
    (∃ cs, SistemaRAG.recuperar_contexto emb rst' q k = .ok cs ∧
      cs.length = k.toNat ∧
      List.Pairwise lexLt (faissPairs ⟨rst.chunks.map emb⟩ (emb q)) ∧
      (∀ i p, i < min k.toNat rst.chunks.length →
        (faissPairs ⟨rst.chunks.map emb⟩ (emb q)).get? i = some p →
        ∃ r, cs.get? i = some r ∧ r.distancia = p.1 ∧ 0 ≤ p.2 ∧
          p.2.toNat < rst.chunks.length ∧
          rst.chunks.get? p.2.toNat = some r.chunk ∧
          rst.metadados.get? p.2.toNat = some r.metadados) ∧
      (∀ i, min k.toNat rst.chunks.length ≤ i → i < k.toNat →
        ∃ r, cs.get? i = some r ∧ r.distancia = faissMaxDist ∧
          rst.chunks.getLast? = some r.chunk ∧
          rst.metadados.getLast? = some r.metadados)) :=
  ⟨buscar_transcricoes_spec emb st st' q k hmetaA hbA hk,
    recuperar_contexto_spec emb rst rst' q k hmetaR hbR hk⟩

/-- C1 (witness): over concrete one-unit indexes in both systems, `k = 2`
yields result lists of length 2. -/
theorem claim_C1_witness :
    (∃ rs, AudioEmbeddingSystem.buscar_transcricoes embLen audioUmIndexado
        ['q'] 2 = .ok rs ∧ rs.length = (2 : Int).toNat) ∧
    (∃ cs, SistemaRAG.recuperar_contexto embLen ragUmIndexado
        ['q'] 2 = .ok cs ∧ cs.length = (2 : Int).toNat) := by
  obtain ⟨hA, hR⟩ :=
    claim_C1 embLen audioUm audioUmIndexado
      (ragInit.adicionar_documento ['A', '.'] "t" none) ragUmIndexado
      ['q'] 2 (by decide) (by decide) (by decide) (by decide) (by decide)
  obtain ⟨rs, h1, h2, -, -, -⟩ := hA
  obtain ⟨cs, h3, h4, -, -, -⟩ := hR
  exact ⟨⟨rs, h1, h2⟩, ⟨cs, h3, h4⟩⟩

/-! ## Claims C5 and C6: chunker guarantees -/

theorem head?_dropWhile_false (p : Char → Bool) (l : List Char) :
    ∀ c, (l.dropWhile p).head? = some c → p c = false := by
  intro c h
  cases hd : l.dropWhile p with
  | nil => rw [hd] at h; cases h
  | cons x xs =>
    rw [hd] at h
    injection h with h'
    subst h'
    have hw := List.head_dropWhile_not p l (by rw [hd]; simp)
    simpa [hd] using hw

theorem getLast?_dropWhile_eq (p : Char → Bool) (l : List Char)
    (h : l.dropWhile p ≠ []) : (l.dropWhile p).getLast? = l.getLast? := by
  obtain ⟨t, ht⟩ := List.dropWhile_suffix (l := l) p
  conv_rhs => rw [← ht]
  rw [List.getLast?_append]
  cases hg : (l.dropWhile p).getLast? with
  | none => exact absurd (List.getLast?_isSome.mpr h) (by simp [hg])
  | some c => rfl

theorem goodSent_pyStrip (l : List Char) (h : pyStrip l ≠ []) :
    goodSent (pyStrip l) := by
  refine ⟨h, ?_, ?_⟩
  · intro c hc
    unfold pyStrip at hc h
    rw [List.head?_reverse] at hc
    have hne : (l.dropWhile pyIsSpace).reverse.dropWhile pyIsSpace ≠ [] := by
      intro hnil
      exact h (by rw [hnil]; rfl)
    rw [getLast?_dropWhile_eq pyIsSpace _ hne, List.getLast?_reverse] at hc
    exact head?_dropWhile_false pyIsSpace l c hc
  · intro c hc
    unfold pyStrip at hc
    rw [List.getLast?_reverse] at hc
    exact head?_dropWhile_false pyIsSpace _ c hc

theorem dropWhile_eq_self_of_head (p : Char → Bool) (l : List Char)
    (h : ∀ c, l.head? = some c → p c = false) : l.dropWhile p = l := by
  cases l with
  | nil => rfl
  | cons x xs =>
    rw [List.dropWhile_cons, if_neg]
    rw [h x rfl]
    simp

theorem pyStrip_core (core : List Char) (h1 : core ≠ [])
    (h2 : ∀ c, core.head? = some c → pyIsSpace c = false)
    (h3 : core.getLast? = some '.') : pyStrip (core ++ [' ']) = core := by
  obtain ⟨c0, hc0⟩ : ∃ c, core.head? = some c := by
    cases core with
    | nil => exact absurd rfl h1
    | cons x xs => exact ⟨x, rfl⟩
  unfold pyStrip
  rw [dropWhile_eq_self_of_head pyIsSpace (core ++ [' ']) (by
    intro c hc
    rw [List.head?_append, hc0, Option.or_some] at hc
    injection hc with hc'
    subst hc'
    exact h2 c0 hc0)]
  rw [List.reverse_append]
  have hsp : pyIsSpace ' ' = true := rfl
  simp only [List.reverse_cons, List.reverse_nil, List.nil_append,
    List.singleton_append, List.dropWhile_cons, hsp, if_true]
  rw [dropWhile_eq_self_of_head pyIsSpace core.reverse (by
    intro c hc
    rw [List.head?_reverse, h3] at hc
    injection hc with hc'
    subst hc'
    rfl)]
  exact List.reverse_reverse core

theorem bufOf_cons (s : List Char) (g : List (List Char)) :
    bufOf (s :: g) = s ++ ['.', ' '] ++ bufOf g := by
  simp [bufOf]

theorem bufOf_eq_nil_iff (g : List (List Char)) : bufOf g = [] ↔ g = [] := by
  cases g with
  | nil => simp [bufOf]
  | cons s g' => simp [bufOf_cons]

theorem bufOf_core_decomp (g : List (List Char)) (hg : g ≠ [])
    (hgood : ∀ s ∈ g, goodSent s) :
    ∃ core, bufOf g = core ++ [' '] ∧ core ≠ [] ∧
      (∀ c, core.head? = some c → pyIsSpace c = false) ∧
      core.getLast? = some '.' := by
  induction g with
  | nil => exact absurd rfl hg
  | cons s g' ih =>
    obtain ⟨hsne, hshead, hslast⟩ := hgood s (List.mem_cons_self s g')
    obtain ⟨c0, hc0⟩ : ∃ c, s.head? = some c := by
      cases s with
      | nil => exact absurd rfl hsne
      | cons x xs => exact ⟨x, rfl⟩
    cases g' with
    | nil =>
      refine ⟨s ++ ['.'], ?_, by simp, ?_, ?_⟩
      · simp [bufOf]
      · intro c hc
        rw [List.head?_append, hc0, Option.or_some] at hc
        injection hc with hc'
        subst hc'
        exact hshead c0 hc0
      · rw [List.getLast?_append]
        rfl
    | cons t g'' =>
      obtain ⟨core', hcore', hne', hhead', hlast'⟩ :=
        ih (by simp) (fun x hx => hgood x (List.mem_cons_of_mem s hx))
      refine ⟨s ++ ['.', ' '] ++ core', ?_, by simp, ?_, ?_⟩
      · rw [bufOf_cons, hcore']
        simp [List.append_assoc]
      · intro c hc
        rw [List.head?_append, List.head?_append, hc0, Option.or_some,
          Option.or_some] at hc
        injection hc with hc'
        subst hc'
        exact hshead c0 hc0
      · rw [List.getLast?_append, hlast']
        rfl

theorem renderChunk_of_core (g : List (List Char)) (core : List Char)
    (h : bufOf g = core ++ [' ']) : renderChunk g = core := by
  rw [renderChunk, h, List.dropLast_concat]

theorem pyStrip_bufOf (g : List (List Char)) (hg : g ≠ [])
    (hgood : ∀ s ∈ g, goodSent s) :
    pyStrip (bufOf g) = renderChunk g := by
  obtain ⟨core, hc, h1, h2, h3⟩ := bufOf_core_decomp g hg hgood
  rw [hc, pyStrip_core core h1 h2 h3]
  exact (renderChunk_of_core g core hc).symm

theorem renderChunk_ne_nil (g : List (List Char)) (hg : g ≠ [])
    (hgood : ∀ s ∈ g, goodSent s) : renderChunk g ≠ [] := by
  obtain ⟨core, hc, h1, _, _⟩ := bufOf_core_decomp g hg hgood
  rw [renderChunk_of_core g core hc]
  exact h1

theorem renderChunk_single (s : List Char) : renderChunk [s] = s ++ ['.'] := by
  have h : bufOf [s] = (s ++ ['.']) ++ [' '] := by simp [bufOf]
  exact renderChunk_of_core [s] (s ++ ['.']) h

theorem renderChunk_length (g : List (List Char)) (hg : g ≠ [])
    (hgood : ∀ s ∈ g, goodSent s) :
    (renderChunk g).length + 1 = (bufOf g).length := by
  obtain ⟨core, hc, _, _, _⟩ := bufOf_core_decomp g hg hgood
  rw [renderChunk_of_core g core hc, hc]
  simp

theorem bufOf_append (g1 g2 : List (List Char)) :
    bufOf (g1 ++ g2) = bufOf g1 ++ bufOf g2 := by
  simp [bufOf]

theorem bufOf_singleton (s : List Char) : bufOf [s] = s ++ ['.', ' '] := by
  simp [bufOf]

theorem chunk_fold_invariant (T : Nat) (P : List (List Char)) :
    ∀ (sents : List (List Char)) (groups : List (List (List Char)))
      (buf : List (List Char)),
    (∀ s ∈ sents, s ∈ P ∧ goodSent s) →
    (∀ g ∈ groups, g ≠ [] ∧ (∀ s ∈ g, s ∈ P ∧ goodSent s) ∧
      (2 ≤ g.length → (bufOf g).length ≤ T + 1)) →
    (∀ s ∈ buf, s ∈ P ∧ goodSent s) →
    (2 ≤ buf.length → (bufOf buf).length ≤ T + 1) →
    ∃ (groups' : List (List (List Char))) (buf' : List (List Char)),
      sents.foldl (coreStep T) (groups.map renderChunk, bufOf buf) =
        (groups'.map renderChunk, bufOf buf') ∧
      (∀ g ∈ groups', g ≠ [] ∧ (∀ s ∈ g, s ∈ P ∧ goodSent s) ∧
        (2 ≤ g.length → (bufOf g).length ≤ T + 1)) ∧
      (∀ s ∈ buf', s ∈ P ∧ goodSent s) ∧
      (2 ≤ buf'.length → (bufOf buf').length ≤ T + 1) ∧
      groups'.flatten ++ buf' = (groups.flatten ++ buf) ++ sents := by
  intro sents
  induction sents with
  | nil =>
    intro groups buf _ hgroups hbuf hbound
    exact ⟨groups, buf, rfl, hgroups, hbuf, hbound, by simp⟩
  | cons s rest ih =>
    intro groups buf hsents hgroups hbuf hbound
    obtain ⟨hsP, hsGood⟩ := hsents s (List.mem_cons_self s rest)
    have hrest : ∀ x ∈ rest, x ∈ P ∧ goodSent x :=
      fun x hx => hsents x (List.mem_cons_of_mem s hx)
    rw [List.foldl_cons]
    by_cases hlen : (bufOf buf ++ s).length < T
    · have hbufs : bufOf (buf ++ [s]) = bufOf buf ++ s ++ ['.', ' '] := by
        rw [bufOf_append, bufOf_singleton, List.append_assoc]
      have hstep : coreStep T (groups.map renderChunk, bufOf buf) s =
          (groups.map renderChunk, bufOf (buf ++ [s])) := by
        unfold coreStep
        rw [if_pos hlen, hbufs]
      rw [hstep]
      have hbuf' : ∀ x ∈ buf ++ [s], x ∈ P ∧ goodSent x := by
        intro x hx
        rcases List.mem_append.mp hx with h | h
        · exact hbuf x h
        · rw [List.mem_singleton.mp h]
          exact ⟨hsP, hsGood⟩
      have hbound' : 2 ≤ (buf ++ [s]).length →
          (bufOf (buf ++ [s])).length ≤ T + 1 := by
        intro _
        rw [List.length_append] at hlen
        rw [hbufs]
        simp only [List.length_append, List.length_cons, List.length_nil]
        omega
      obtain ⟨groups', buf', heq, hg', hb', hbd', hflat⟩ :=
        ih groups (buf ++ [s]) hrest hgroups hbuf' hbound'
      refine ⟨groups', buf', heq, hg', hb', hbd', ?_⟩
      rw [hflat]
      simp [List.append_assoc]
    · by_cases hbe : buf = []
      · have hstep : coreStep T (groups.map renderChunk, bufOf buf) s =
            (groups.map renderChunk, bufOf [s]) := by
          unfold coreStep
          rw [if_neg hlen, if_pos (by rw [hbe]; rfl), bufOf_singleton]
        rw [hstep]
        have hbufS : ∀ x ∈ [s], x ∈ P ∧ goodSent x := by
          intro x hx
          rw [List.mem_singleton.mp hx]
          exact ⟨hsP, hsGood⟩
        obtain ⟨groups', buf', heq, hg', hb', hbd', hflat⟩ :=
          ih groups [s] hrest hgroups hbufS (by intro h2; simp at h2)
        refine ⟨groups', buf', heq, hg', hb', hbd', ?_⟩
        rw [hflat, hbe]
        simp
      · have hbufne : bufOf buf ≠ [] :=
          fun hc => hbe ((bufOf_eq_nil_iff buf).mp hc)
        have hgoodbuf : ∀ x ∈ buf, goodSent x := fun x hx => (hbuf x hx).2
        have hstep : coreStep T (groups.map renderChunk, bufOf buf) s =
            ((groups ++ [buf]).map renderChunk, bufOf [s]) := by
          unfold coreStep
          rw [if_neg hlen, if_neg (by simpa [List.isEmpty_iff] using hbufne)]
          rw [pyStrip_bufOf buf hbe hgoodbuf, bufOf_singleton]
          simp
        rw [hstep]
        have hgroups' : ∀ g ∈ groups ++ [buf], g ≠ [] ∧
            (∀ x ∈ g, x ∈ P ∧ goodSent x) ∧
            (2 ≤ g.length → (bufOf g).length ≤ T + 1) := by
          intro g hg
          rcases List.mem_append.mp hg with h | h
          · exact hgroups g h
          · rw [List.mem_singleton.mp h]
            exact ⟨hbe, hbuf, hbound⟩
        have hbufS : ∀ x ∈ [s], x ∈ P ∧ goodSent x := by
          intro x hx
          rw [List.mem_singleton.mp hx]
          exact ⟨hsP, hsGood⟩
        obtain ⟨groups', buf', heq, hg', hb', hbd', hflat⟩ :=
          ih (groups ++ [buf]) [s] hrest hgroups' hbufS
            (by intro h2; simp at h2)
        refine ⟨groups', buf', heq, hg', hb', hbd', ?_⟩
        rw [hflat]
        simp [List.flatten_append, List.append_assoc]

theorem foldl_chunkStep_eq (T : Nat) :
    ∀ (l : List (List Char)) (p : List (List Char) × List Char),
    l.foldl (chunkStep T) p =
      ((l.map pyStrip).filter (fun s => !s.isEmpty)).foldl (coreStep T) p := by
  intro l
  induction l with
  | nil => intro p; rfl
  | cons r rest ih =>
    intro p
    rw [List.foldl_cons, List.map_cons, List.filter_cons]
    by_cases he : (pyStrip r).isEmpty
    · rw [if_neg (by simp [he])]
      have hstep : chunkStep T p r = p := by simp [chunkStep, he]
      rw [hstep]
      exact ih p
    · rw [if_pos (by simp [he]), List.foldl_cons]
      have hstep : chunkStep T p r = coreStep T p (pyStrip r) := by
        simp [chunkStep, he]
      rw [hstep]
      exact ih _

theorem sentencas_good (texto : List Char) :
    ∀ s ∈ sentencas texto, s ∈ sentencas texto ∧ goodSent s := by
  intro s hs
  refine ⟨hs, ?_⟩
  unfold sentencas at hs
  obtain ⟨hs', hfilt⟩ := List.mem_filter.mp hs
  obtain ⟨r, _, rfl⟩ := List.mem_map.mp hs'
  apply goodSent_pyStrip
  simpa [List.isEmpty_iff] using hfilt

theorem dividir_em_chunks_spec (texto : List Char) (T : Nat) :
    ∃ groups : List (List (List Char)),
      dividir_em_chunks texto T = groups.map renderChunk ∧
      (∀ g ∈ groups, g ≠ [] ∧
        (∀ s ∈ g, s ∈ sentencas texto ∧ goodSent s) ∧
        (2 ≤ g.length → (bufOf g).length ≤ T + 1)) ∧
      groups.flatten = sentencas texto := by
  obtain ⟨groups', buf', heq, hg', hb', hbd', hflat⟩ :=
    chunk_fold_invariant T (sentencas texto) (sentencas texto) [] []
      (sentencas_good texto) (by intro g hg; cases hg)
      (by intro s hs; cases hs) (by intro h2; simp at h2)
  have heq' : (sentencas texto).foldl (coreStep T) ([], []) =
      (groups'.map renderChunk, bufOf buf') := heq
  unfold dividir_em_chunks
  rw [foldl_chunkStep_eq]
  have hsent : ((regexSplit texto).map pyStrip).filter
      (fun s => !s.isEmpty) = sentencas texto := rfl
  rw [hsent, heq']
  by_cases hbe : buf' = []
  · subst hbe
    refine ⟨groups', by simp [bufOf], hg', by simpa using hflat⟩
  · have hbufne : bufOf buf' ≠ [] :=
      fun hc => hbe ((bufOf_eq_nil_iff buf').mp hc)
    refine ⟨groups' ++ [buf'], ?_, ?_, ?_⟩
    · rw [if_neg (by simpa [List.isEmpty_iff] using hbufne)]
      rw [pyStrip_bufOf buf' hbe (fun x hx => (hb' x hx).2)]
      simp
    · intro g hg
      rcases List.mem_append.mp hg with h | h
      · exact hg' g h
      · rw [List.mem_singleton.mp h]
        exact ⟨hbe, hb', hbd'⟩
    · rw [List.flatten_append]
      simpa using hflat

/-- C5: for every chunk target size `T ≥ 1`, each produced chunk either has
length at most `T`, or consists of a single stripped sentence (rendered as
`sentence ++ "."`) whose normalised form alone reaches or exceeds `T`. -/
theorem claim_C5 (texto : List Char) (T : Nat) (hT : 1 ≤ T) :
    ∀ c ∈ dividir_em_chunks texto T, c.length ≤ T ∨
      ∃ s ∈ sentencas texto, c = s ++ ['.'] ∧ T ≤ c.length := by
  obtain ⟨groups, heq, hg, -⟩ := dividir_em_chunks_spec texto T
  intro c hc
  rw [heq] at hc
  obtain ⟨g, hgmem, rfl⟩ := List.mem_map.mp hc
  obtain ⟨hgne, hgsent, hgbound⟩ := hg g hgmem
  cases g with
  | nil => exact absurd rfl hgne
  | cons s g' =>
    cases g' with
    | nil =>
      rw [renderChunk_single]
      obtain ⟨hsP, -⟩ := hgsent s (List.mem_cons_self s [])
      by_cases hle : (s ++ ['.']).length ≤ T
      · exact Or.inl hle
      · exact Or.inr ⟨s, hsP, rfl, by omega⟩
    | cons t g'' =>
      left
      have hlen2 : 2 ≤ (s :: t :: g'').length := by simp
      have hb := hgbound hlen2
      have hr := renderChunk_length (s :: t :: g'') hgne
        (fun x hx => (hgsent x hx).2)
      omega

/-- C5 (witness): with target size 3, the text `"A. B."` yields the chunk
`"A."`, which satisfies the size bound. -/
theorem claim_C5_witness :
    ['A', '.'].length ≤ 3 ∨
      ∃ s ∈ sentencas ['A', '.', ' ', 'B', '.'], ['A', '.'] = s ++ ['.'] ∧
        3 ≤ ['A', '.'].length :=
  claim_C5 ['A', '.', ' ', 'B', '.'] 3 (by decide) ['A', '.'] (by decide)

/-- C6: for every non-empty text, the chunker's output is the rendering of
a partition of the text's non-empty stripped sentence sequence: each chunk
is its group of consecutive sentences joined by `". "` with a final `"."`
(so the concatenation, after normalising the separators, is exactly the
sentence sequence — none lost, none duplicated, in order), and no chunk is
empty. -/
theorem claim_C6 (texto : List Char) (T : Nat) (h : texto ≠ []) :
    ∃ groups : List (List (List Char)),
      dividir_em_chunks texto T = groups.map renderChunk ∧
      groups.flatten = sentencas texto ∧
      (∀ g ∈ groups, g ≠ []) ∧
      ∀ c ∈ dividir_em_chunks texto T, c ≠ [] := by
  obtain ⟨groups, heq, hg, hflat⟩ := dividir_em_chunks_spec texto T
  refine ⟨groups, heq, hflat, fun g hgm => (hg g hgm).1, ?_⟩
  intro c hc
  rw [heq] at hc
  obtain ⟨g, hgm, rfl⟩ := List.mem_map.mp hc
  obtain ⟨hgne, hgsent, -⟩ := hg g hgm
  exact renderChunk_ne_nil g hgne (fun x hx => (hgsent x hx).2)

/-- C6 (witness): the text `"A. B."` at target 100 is reconstructed from a
concrete sentence partition. -/
theorem claim_C6_witness :
    ∃ groups : List (List (List Char)),
      dividir_em_chunks ['A', '.', ' ', 'B', '.'] 100 =
        groups.map renderChunk ∧
      groups.flatten = sentencas ['A', '.', ' ', 'B', '.'] ∧
      (∀ g ∈ groups, g ≠ []) ∧
      ∀ c ∈ dividir_em_chunks ['A', '.', ' ', 'B', '.'] 100, c ≠ [] :=
  claim_C6 ['A', '.', ' ', 'B', '.'] 100 (by decide)
